import Mathlib

set_option maxHeartbeats 1000000
set_option maxRecDepth 8192

/-!
Shallow embedding of the dnsFilterApp DNS filtering resolver (Go) in Lean 4.

The definitions below are translated from the Go sources:
  internal/filter/engine.go     (filter engine: ShouldBlock, isWhitelisted,
                                 isInAllowedTime, UpdateBlocklists,
                                 loadCustomYAMLBlocklists,
                                 ReloadCustomBlocklists, GetBlockedCount)
  internal/dns/server.go        (query pipeline: handleDNSRequest,
                                 handleBlockedDomain, forwardToUpstream)
  internal/database/database.go (DNSCache: makeKey, Get, Set, evictOldest)
  internal/dns upstream pool    (UpstreamPool: NewUpstreamPool, Get)
  internal/config/config.go     (configuration record shapes)

Modelling conventions.  Go strings are byte sequences; they are modelled as
`List Char` (all data handled here is ASCII, where Go byte-wise operations
and the character-wise operations below agree), because Lean String
primitives do not reduce inside the kernel.  Go maps used as sets become
`Finset (List Char)`; Go slices become `List`; Go uint32 and uint64
arithmetic is modelled on Nat with explicit reduction mod 2 ^ 32 or 2 ^ 64
where the code performs such arithmetic.  Network, filesystem and clock
effects are passed in as explicit inputs: the fetch outcome of a blocklist
source, the parsed content of a custom YAML file, the current wall-clock
weekday and HH:MM strings, and the upstream reply for a forwarded query.
-/

/-- Go strings, modelled as their character sequences. -/
abbrev GoStr : Type := List Char

/-- Go `strings.ToLower` (ASCII range, which covers all data handled here). -/
def toLowerL (s : GoStr) : GoStr :=
  s.map Char.toLower

/-- Go `strings.TrimSpace`: drop whitespace from both ends. -/
def trimL (s : GoStr) : GoStr :=
  ((s.dropWhile Char.isWhitespace).reverse.dropWhile Char.isWhitespace).reverse

/-- Go `strings.HasSuffix s suf`. -/
def hasSuffixL (s suf : GoStr) : Bool :=
  decide (suf <:+ s)

/-- Go `strings.Split(s, ".")`: split on every dot; the empty string yields
one empty field. -/
def splitOnDot : GoStr → List GoStr
  | [] => [[]]
  | c :: cs =>
    let rest := splitOnDot cs
    if c = '.' then [] :: rest
    else
      match rest with
      | [] => [[c]]
      | r :: rs => (c :: r) :: rs

/-- Go `strings.Join(parts, ".")`. -/
def joinDot : List GoStr → GoStr
  | [] => []
  | [x] => x
  | x :: xs => x ++ '.' :: joinDot xs

/-- Go byte-wise string comparison `a < b` (lexicographic). -/
def strLtL : GoStr → GoStr → Bool
  | [], [] => false
  | [], _ :: _ => true
  | _ :: _, [] => false
  | a :: as, b :: bs => if a < b then true else if b < a then false else strLtL as bs

/-- Go string comparison `a <= b`. -/
def strLeL (a b : GoStr) : Bool :=
  !(strLtL b a)

/-- Go helper `normalizeDomain` (engine.go): trim whitespace, lowercase,
strip one trailing dot (`strings.TrimSuffix(domain, ".")`). -/
def normalizeDomain (domain : GoStr) : GoStr :=
  let d := toLowerL (trimL domain)
  if hasSuffixL d ['.'] then d.dropLast else d

/-- Go `strings.TrimPrefix(w, "*.")` as used in `isWhitelisted`: remove the
leading `*.` when present, otherwise return the string unchanged. -/
def trimStarDot (w : GoStr) : GoStr :=
  match w with
  | '*' :: '.' :: rest => rest
  | _ => w

/-- Go `strings.HasPrefix(w, "*.")`. -/
def startsWithStarDot (w : GoStr) : Bool :=
  match w with
  | '*' :: '.' :: _ => true
  | _ => false

/-- The three domain sets held by the filter engine (engine.go `Engine`):
remote blocklist `blockedDomains`, custom blocklist `customBlocked`, and
`whitelist`.  Go `map[string]bool` used as a set becomes a Finset. -/
structure Engine where
  blockedDomains : Finset GoStr
  customBlocked : Finset GoStr
  whitelist : Finset GoStr
deriving DecidableEq

/-- config.go `ScheduleRule`. -/
structure ScheduleRule where
  Name : GoStr
  Days : List GoStr
  StartTime : GoStr
  EndTime : GoStr
  StrictMode : Bool
deriving DecidableEq

/-- config.go `ScheduleConfig`. -/
structure ScheduleConfig where
  Enabled : Bool
  Rules : List ScheduleRule
deriving DecidableEq

/-- The current wall-clock instant as engine.go observes it:
`now.Weekday().String()` (for example "Tuesday") and `now.Format("15:04")`. -/
structure Instant where
  weekday : GoStr
  hhmm : GoStr
deriving DecidableEq

/-- engine.go `isWhitelisted`: literal membership, or some whitelist entry of
the form `*.SUFFIX` such that the domain ends with SUFFIX (a pure string
suffix test, `strings.HasSuffix`). -/
def isWhitelisted (wl : Finset GoStr) (domain : GoStr) : Bool :=
  decide (domain ∈ wl) ||
    decide (∃ w ∈ wl, startsWithStarDot w = true ∧
      hasSuffixL domain (trimStarDot w) = true)

/-- One iteration of the rule loop in engine.go `isInAllowedTime`: the rule
matches when some rule day (lowercased) equals the lowercased current weekday
and `StartTime <= HH:MM <= EndTime` under Go string comparison. -/
def ruleMatches (r : ScheduleRule) (now : Instant) : Bool :=
  r.Days.any (fun day => toLowerL day == toLowerL now.weekday) &&
    (strLeL r.StartTime now.hhmm && strLeL now.hhmm r.EndTime)

/-- engine.go `isInAllowedTime`: true when the rules list is empty, otherwise
false exactly when some rule matches the current instant (the Go loop
returns false from inside the loop on the first matching rule). -/
def isInAllowedTime (rules : List ScheduleRule) (now : Instant) : Bool :=
  if rules.isEmpty then true
  else !(rules.any (fun r => ruleMatches r now))

/-- Go `len(Rules) > 0 && Rules[0].StrictMode` inside `ShouldBlock`. -/
def scheduleHeadStrict (rules : List ScheduleRule) : Bool :=
  match rules with
  | [] => false
  | r :: _ => r.StrictMode

/-- The schedule short-circuit in engine.go `ShouldBlock`: the outer
condition `Schedule.Enabled && !isInAllowedTime()` guards the inner
`len(Rules) > 0 && Rules[0].StrictMode`; only when all of these hold does
the function return true early. -/
def scheduleStrict (sched : ScheduleConfig) (now : Instant) : Bool :=
  sched.Enabled && !(isInAllowedTime sched.Rules now) &&
    scheduleHeadStrict sched.Rules

/-- The blocklist membership cascade of engine.go `ShouldBlock` after the
whitelist and schedule checks: direct custom hit, direct remote hit, then
the subdomain loop `for i := 1; i < len(parts); i++` testing
`strings.Join(parts[i:], ".")` against both sets. -/
def blocklistHit (e : Engine) (d : GoStr) : Bool :=
  decide (d ∈ e.customBlocked) ||
  decide (d ∈ e.blockedDomains) ||
  (let parts := splitOnDot d
   (List.range' 1 (parts.length - 1)).any (fun i =>
     let parent := joinDot (parts.drop i)
     decide (parent ∈ e.blockedDomains) || decide (parent ∈ e.customBlocked)))

/-- engine.go `ShouldBlock`: normalize, never block the empty name,
whitelist veto, schedule strict short-circuit, then the blocklist cascade.
The Go method also receives a client IP which the body never reads. -/
def ShouldBlock (e : Engine) (sched : ScheduleConfig) (now : Instant)
    (domain : GoStr) (_clientIP : GoStr) : Bool :=
  let d := normalizeDomain domain
  if d = [] then false
  else if isWhitelisted e.whitelist d then false
  else if scheduleStrict sched now then true
  else blocklistHit e d

/-- A DNS question: query name (as received on the wire, trailing dot and
letter case preserved) and record type (`Qtype`, a uint16). -/
structure DnsQuestion where
  name : GoStr
  qtype : Nat
deriving DecidableEq

/-- A DNS resource record, reduced to the fields the pipeline manipulates:
owner name, record type, TTL and record data (for A records, the IP text). -/
structure DnsRR where
  rrname : GoStr
  rrtype : Nat
  ttl : Nat
  rdata : GoStr
deriving DecidableEq

/-- A DNS message, reduced to the fields the pipeline reads or writes:
transaction id, response code, authoritative flag, question section and
answer section. -/
structure DnsMsg where
  id : Nat
  rcode : Nat
  authoritative : Bool
  question : List DnsQuestion
  answer : List DnsRR
deriving DecidableEq

/-- A fragment of the miekg dns `TypeToString` table covering the record
types exercised here; looking up a type not in the table yields the empty
string, as a Go map lookup of a missing key does. -/
def typeToString (t : Nat) : GoStr :=
  if t = 1 then "A".toList
  else if t = 2 then "NS".toList
  else if t = 5 then "CNAME".toList
  else if t = 6 then "SOA".toList
  else if t = 12 then "PTR".toList
  else if t = 15 then "MX".toList
  else if t = 16 then "TXT".toList
  else if t = 28 then "AAAA".toList
  else []

/-- database.go `cacheEntry`: stored response plus insertion timestamp
(modelled as an abstract tick count). -/
structure CacheEntry where
  response : DnsMsg
  timestamp : Nat
deriving DecidableEq

/-- database.go `DNSCache`: entries keyed by the `makeKey` string, a maximum
size and a TTL.  The Go `map[string]*cacheEntry` becomes an association list
with unique keys; Go map iteration order is not specified, so where the code
iterates the map (eviction) the model fixes list order. -/
structure DNSCache where
  entries : List (GoStr × CacheEntry)
  maxSize : Nat
  ttl : Nat
deriving DecidableEq

/-- database.go `(c *DNSCache) makeKey`: `domain + ":" + dns.TypeToString[qtype]`.
The domain is used exactly as passed in; no normalization happens here. -/
def DNSCache.makeKey (domain : GoStr) (qtype : Nat) : GoStr :=
  domain ++ ':' :: typeToString qtype

/-- database.go `(c *DNSCache) Get`: look up by key; a present entry is
returned only while not expired (`time.Since(timestamp) <= ttl`); the Go
code returns a deep copy, which a pure model need not distinguish. -/
def DNSCache.Get (c : DNSCache) (nowT : Nat) (domain : GoStr) (qtype : Nat) :
    Option DnsMsg :=
  match c.entries.find? (fun kv => kv.1 == DNSCache.makeKey domain qtype) with
  | none => none
  | some kv => if nowT - kv.2.timestamp ≤ c.ttl then some kv.2.response else none

/-- database.go `(c *DNSCache) evictOldest`: find the entry with the oldest
timestamp (the code keeps the first minimum it meets while iterating) and
delete it; an empty cache is returned unchanged (the sentinel key stays ""). -/
def evictOldest (entries : List (GoStr × CacheEntry)) : List (GoStr × CacheEntry) :=
  let oldest := entries.foldl (fun acc kv =>
    match acc with
    | none => some kv
    | some best => if kv.2.timestamp < best.2.timestamp then some kv else some best) none
  match oldest with
  | none => entries
  | some best => entries.eraseP (fun kv => kv.1 == best.1)

/-- database.go `(c *DNSCache) Set`: evict the oldest entry when full, then
store the response under `makeKey domain qtype` with the current time (a Go
map assignment replaces any entry with the same key, hence the erase). -/
def DNSCache.Set (c : DNSCache) (nowT : Nat) (domain : GoStr) (qtype : Nat)
    (response : DnsMsg) : DNSCache :=
  let entries := if c.entries.length ≥ c.maxSize then evictOldest c.entries else c.entries
  let key := DNSCache.makeKey domain qtype
  { c with entries := (key, ⟨response, nowT⟩) :: entries.eraseP (fun kv => kv.1 == key) }

/-- database.go `(c *DNSCache) Clear`: replace the map with an empty one. -/
def DNSCache.Clear (c : DNSCache) : DNSCache :=
  { c with entries := [] }

/-- config.go `FilteringConfig`, reduced to the fields the query pipeline
reads: master enable flag, block action, redirect IP and schedule. -/
structure FilteringCfg where
  Enabled : Bool
  BlockAction : GoStr
  RedirectIP : GoStr
  Schedule : ScheduleConfig
deriving DecidableEq

/-- server.go `Statistics` counters (uint64 in Go; increments reduce
mod 2 ^ 64). -/
structure Statistics where
  TotalQueries : Nat
  BlockedQueries : Nat
  CachedResponses : Nat
deriving DecidableEq

/-- miekg dns `m.SetReply(r)` on a fresh message followed by
`m.Authoritative = true` (server.go handleDNSRequest): id and question taken
from the request, NOERROR rcode, empty answer section. -/
def setReplyNew (r : DnsMsg) : DnsMsg :=
  { id := r.id, rcode := 0, authoritative := true, question := r.question, answer := [] }

/-- miekg dns `cachedResponse.SetReply(r)` (server.go cache-hit path): the
stored message with the transaction id and question substituted from the
request and the rcode reset to NOERROR; answers are kept. -/
def setReplyOn (m r : DnsMsg) : DnsMsg :=
  { m with id := r.id, rcode := 0, question := r.question }

/-- The outcome of one `handleDNSRequest` call: the message written back,
the updated statistics and cache, and the list of cache insertions the call
performed (each as the map key paired with the stored response). -/
structure HandleResult where
  reply : DnsMsg
  stats : Statistics
  cache : DNSCache
  inserted : List (GoStr × DnsMsg)
deriving DecidableEq

/-- server.go `handleBlockedDomain`: bump the blocked counter, then shape
the reply according to the configured block action: `nxdomain` sets rcode 3;
`redirect` and `block_page` append a TTL-300 A record (redirect IP,
respectively 127.0.0.1) when the first question is an A query; any other
action value leaves the empty reply unchanged.  Logging and the database
write are outside the model.  Nothing is ever inserted into the cache. -/
def handleBlockedDomain (cfg : FilteringCfg) (stats : Statistics) (cache : DNSCache)
    (r m : DnsMsg) : HandleResult :=
  let stats := { stats with BlockedQueries := (stats.BlockedQueries + 1) % 2 ^ 64 }
  let m :=
    if cfg.BlockAction = "nxdomain".toList then { m with rcode := 3 }
    else if cfg.BlockAction = "redirect".toList then
      match r.question with
      | q :: _ =>
        if q.qtype = 1 then
          { m with answer := m.answer ++ [⟨q.name, 1, 300, cfg.RedirectIP⟩] }
        else m
      | [] => m
    else if cfg.BlockAction = "block_page".toList then
      match r.question with
      | q :: _ =>
        if q.qtype = 1 then
          { m with answer := m.answer ++ [⟨q.name, 1, 300, "127.0.0.1".toList⟩] }
        else m
      | [] => m
    else m
  { reply := m, stats := stats, cache := cache, inserted := [] }

/-- server.go `forwardToUpstream`: the network exchange is an input
(`upstream = none` models a timeout or network error).  On error the reply
is SERVFAIL (rcode 2) and nothing is cached; on success the response is
cached under `(domain, qtype)` exactly when its rcode is NOERROR and its
answer section is non-empty, and the upstream response itself is the reply. -/
def forwardToUpstream (stats : Statistics) (cache : DNSCache) (nowT : Nat)
    (upstream : Option DnsMsg) (m : DnsMsg) (domain : GoStr) (qtype : Nat) :
    HandleResult :=
  match upstream with
  | none => { reply := { m with rcode := 2 }, stats := stats, cache := cache, inserted := [] }
  | some response =>
    if response.rcode = 0 ∧ response.answer ≠ [] then
      { reply := response, stats := stats,
        cache := DNSCache.Set cache nowT domain qtype response,
        inserted := [(DNSCache.makeKey domain qtype, response)] }
    else
      { reply := response, stats := stats, cache := cache, inserted := [] }

/-- server.go `handleDNSRequest`: bump the total counter, build the reply
skeleton, answer zero-question messages with the empty reply immediately,
otherwise try the cache under the raw question name, then the filter, then
the upstream.  The current instant, tick count, client address and upstream
outcome are explicit inputs. -/
def handleDNSRequest (cfg : FilteringCfg) (e : Engine) (now : Instant) (nowT : Nat)
    (clientIP : GoStr) (upstream : Option DnsMsg) (cache : DNSCache)
    (stats : Statistics) (r : DnsMsg) : HandleResult :=
  let stats := { stats with TotalQueries := (stats.TotalQueries + 1) % 2 ^ 64 }
  let m := setReplyNew r
  match r.question with
  | [] => { reply := m, stats := stats, cache := cache, inserted := [] }
  | q :: _ =>
    let domain := q.name
    match cache.Get nowT domain q.qtype with
    | some cachedResponse =>
      let stats := { stats with CachedResponses := (stats.CachedResponses + 1) % 2 ^ 64 }
      { reply := setReplyOn cachedResponse r, stats := stats, cache := cache, inserted := [] }
    | none =>
      if cfg.Enabled && ShouldBlock e cfg.Schedule now domain clientIP then
        handleBlockedDomain cfg stats cache r m
      else
        forwardToUpstream stats cache nowT upstream m domain q.qtype

/-- One inbound datagram together with the ambient effects of its handling:
wall-clock instant, tick count, client address, upstream outcome, request. -/
structure QueryEvent where
  now : Instant
  nowT : Nat
  clientIP : GoStr
  upstream : Option DnsMsg
  req : DnsMsg
deriving DecidableEq

/-- Sequential handling of a list of queries, threading statistics and
cache, and collecting every cache insertion performed along the way. -/
def handleAll (cfg : FilteringCfg) (e : Engine) (stats : Statistics) (cache : DNSCache) :
    List QueryEvent → Statistics × DNSCache × List (GoStr × DnsMsg)
  | [] => (stats, cache, [])
  | ev :: rest =>
    let res := handleDNSRequest cfg e ev.now ev.nowT ev.clientIP ev.upstream cache stats ev.req
    let tail := handleAll cfg e res.stats res.cache rest
    (tail.1, tail.2.1, res.inserted ++ tail.2.2)
/-- engine.go `CustomBlocklistEntry` (one element of a custom YAML file). -/
structure CustomBlocklistEntry where
  Domain : GoStr
  Category : GoStr
  Note : GoStr
  Enabled : Bool
deriving DecidableEq

/-- engine.go `CustomBlocklist` (the parsed form of one custom YAML file). -/
structure CustomBlocklist where
  Version : GoStr
  LastUpdated : GoStr
  Domains : List CustomBlocklistEntry
deriving DecidableEq

/-- The body of the entry loop in engine.go `loadCustomYAMLBlocklists`:
skip disabled entries, normalize the domain, and when it is non-empty add
it to the result set and bump the count. -/
def customEntryStep (acc2 : Finset GoStr × Nat) (entry : CustomBlocklistEntry) :
    Finset GoStr × Nat :=
  if !entry.Enabled then acc2
  else
    let domain := normalizeDomain entry.Domain
    if domain ≠ [] then (insert domain acc2.1, acc2.2 + 1) else acc2

/-- The body of the file loop in engine.go `loadCustomYAMLBlocklists`: a
file that fails to read or parse (modelled as `none`) is logged and
skipped; otherwise its entries are folded in. -/
def customFileStep (acc : Finset GoStr × Nat) (file : Option CustomBlocklist) :
    Finset GoStr × Nat :=
  match file with
  | none => acc
  | some bl => bl.Domains.foldl customEntryStep acc

/-- engine.go `loadCustomYAMLBlocklists`: the configured glob yields a list
of files; every enabled entry with a non-empty normalized domain is added
to the result set and counted (the count is per entry, so a domain repeated
across entries or files is counted each time). -/
def loadCustomYAMLBlocklists (files : List (Option CustomBlocklist)) :
    Finset GoStr × Nat :=
  files.foldl customFileStep (∅, 0)

/-- engine.go `ReloadCustomBlocklists`: reload the custom YAML files and add
each loaded domain to `customBlocked` (`e.customBlocked[domain] = true` in a
loop — existing entries are kept, nothing is removed); `blockedDomains` is
untouched; the entry count and a nil error are returned. -/
def ReloadCustomBlocklists (e : Engine) (files : List (Option CustomBlocklist)) :
    Engine × Nat :=
  let loaded := loadCustomYAMLBlocklists files
  ({ e with customBlocked := e.customBlocked ∪ loaded.1 }, loaded.2)

/-- config.go `BlocklistSource` together with the outcome of
`fetchBlocklist` for its URL, supplied as an oracle (`none` models a fetch
or parse failure; `some domains` the normalized domain list the line parser
produced).  The network body itself is outside the embedding. -/
structure BlocklistSource where
  SrcName : GoStr
  URL : GoStr
  Category : GoStr
  Enabled : Bool
  fetchResult : Option (List GoStr)
deriving DecidableEq

/-- The body of the source loop in engine.go `UpdateBlocklists`: a disabled
source contributes nothing; a failing fetch is logged and skipped; the
domains of a successful fetch are added one by one
(`newBlocked[domain] = true`). -/
def sourceStep (acc : Finset GoStr) (src : BlocklistSource) : Finset GoStr :=
  if !src.Enabled then acc
  else
    match src.fetchResult with
    | none => acc
    | some domains => domains.foldl (fun s d => insert d s) acc

/-- engine.go `UpdateBlocklists` body (continued): fold every source into a
fresh set, merge in the custom YAML domains, swap `blockedDomains`, return
nil unconditionally. -/
def UpdateBlocklists (e : Engine) (sources : List BlocklistSource)
    (files : List (Option CustomBlocklist)) : Engine × Option GoStr :=
  let newBlocked := sources.foldl sourceStep (∅ : Finset GoStr)
  let customDomains := (loadCustomYAMLBlocklists files).1
  ({ e with blockedDomains := newBlocked ∪ customDomains }, none)

/-- engine.go `GetBlockedCount`: `len(e.blockedDomains) + len(e.customBlocked)`. -/
def GetBlockedCount (e : Engine) : Nat :=
  e.blockedDomains.card + e.customBlocked.card

/-- Specification-side description of the remote ingestion result: the
union of the fetched domain sets of the enabled, successful sources. -/
def srcUnion (sources : List BlocklistSource) : Finset GoStr :=
  sources.foldr (fun src s =>
    if src.Enabled then
      match src.fetchResult with
      | none => s
      | some domains => domains.toFinset ∪ s
    else s) ∅

/-- Specification-side selector for one custom entry: an enabled entry
with a non-empty normalized domain contributes that domain. -/
def entrySel (entry : CustomBlocklistEntry) : Option GoStr :=
  if entry.Enabled = true ∧ normalizeDomain entry.Domain ≠ [] then
    some (normalizeDomain entry.Domain)
  else none

/-- Specification-side predicate matching `entrySel` success. -/
def entryPred (entry : CustomBlocklistEntry) : Bool :=
  entry.Enabled && decide (normalizeDomain entry.Domain ≠ [])

/-- Specification-side description of one parsed custom file: the
normalized domains of its enabled entries, empty results dropped. -/
def enabledDomains (bl : CustomBlocklist) : List GoStr :=
  bl.Domains.filterMap entrySel

/-- Specification-side description of the custom YAML ingestion result
across all readable files. -/
def filesDomains (files : List (Option CustomBlocklist)) : Finset GoStr :=
  (files.filterMap id).foldr (fun bl s => (enabledDomains bl).toFinset ∪ s) ∅

/-- Specification-side count of loadable custom entries: enabled entries
with a non-empty normalized domain, summed over readable files. -/
def countEnabledEntries (files : List (Option CustomBlocklist)) : Nat :=
  ((files.filterMap id).map (fun bl => bl.Domains.countP entryPred)).sum

/-- The dns upstream pool: server list plus the shared round-robin index
(a uint32 in Go, kept below 2 ^ 32 by the increment). -/
structure UpstreamPool where
  servers : List GoStr
  index : Nat
deriving DecidableEq

/-- The pool constructor `NewUpstreamPool`: an empty configured list falls back to Google DNS. -/
def NewUpstreamPool (servers : List GoStr) : UpstreamPool :=
  if servers.isEmpty then ⟨["8.8.8.8:53".toList], 0⟩ else ⟨servers, 0⟩

/-- Go `(p *UpstreamPool) Get`: empty pool returns the default; a single
server is returned without touching the index; otherwise the index is
atomically incremented (uint32 arithmetic, hence mod 2 ^ 32) and the server
at the new value mod the pool size is returned, together with the updated
pool state. -/
def UpstreamPool.Get (p : UpstreamPool) : GoStr × UpstreamPool :=
  if p.servers.isEmpty then ("8.8.8.8:53".toList, p)
  else if p.servers.length = 1 then (p.servers.getD 0 [], p)
  else
    let idx := (p.index + 1) % 2 ^ 32
    (p.servers.getD (idx % p.servers.length) [], ⟨p.servers, idx⟩)

/-- Iterated calls to `UpstreamPool.Get`: the list of returned servers over
n consecutive calls, plus the final pool state. -/
def UpstreamPool.run (p : UpstreamPool) : Nat → List GoStr × UpstreamPool
  | 0 => ([], p)
  | n + 1 =>
    let r := p.Get
    let rest := r.2.run n
    (r.1 :: rest.1, rest.2)

/-- The subdomain loop of `ShouldBlock` as a proposition: some strict suffix
of the label list, joined by dots, lies in one of the two blocked sets. -/
theorem blocklistHit_iff (e : Engine) (d : GoStr) :
    blocklistHit e d = true ↔
      (d ∈ e.customBlocked ∨ d ∈ e.blockedDomains ∨
        ∃ i, 1 ≤ i ∧ i < (splitOnDot d).length ∧
          (joinDot ((splitOnDot d).drop i) ∈ e.blockedDomains ∨
           joinDot ((splitOnDot d).drop i) ∈ e.customBlocked)) := by
  simp only [blocklistHit, Bool.or_eq_true, decide_eq_true_eq, List.any_eq_true,
    List.mem_range'_1]
  constructor
  · rintro ((h | h) | ⟨i, ⟨h1, h2⟩, h3⟩)
    · exact Or.inl h
    · exact Or.inr (Or.inl h)
    · exact Or.inr (Or.inr ⟨i, h1, by omega, h3⟩)
  · rintro (h | h | ⟨i, h1, h2, h3⟩)
    · exact Or.inl (Or.inl h)
    · exact Or.inl (Or.inr h)
    · exact Or.inr ⟨i, ⟨h1, by omega⟩, h3⟩

/-- Claim C1: with schedule-based filtering disabled, `ShouldBlock` returns
true exactly when the normalized name is not whitelisted and some suffix of
its label list (the name itself, or the labels from position i on joined by
dots) belongs to the custom set or the remote set; and `ShouldBlock` of the
empty string is always false.  The hypotheses record the engine invariant
that the empty string never appears in either blocked set. -/
theorem shouldBlock_suffix_characterization
    (e : Engine) (sched : ScheduleConfig) (now : Instant) (N client : GoStr)
    (hb : ([] : GoStr) ∉ e.blockedDomains) (hc : ([] : GoStr) ∉ e.customBlocked)
    (hs : sched.Enabled = false) :
    (ShouldBlock e sched now N client = true ↔
      (isWhitelisted e.whitelist (normalizeDomain N) = false ∧
        (normalizeDomain N ∈ e.customBlocked ∨ normalizeDomain N ∈ e.blockedDomains ∨
          ∃ i, 1 ≤ i ∧ i < (splitOnDot (normalizeDomain N)).length ∧
            (joinDot ((splitOnDot (normalizeDomain N)).drop i) ∈ e.blockedDomains ∨
             joinDot ((splitOnDot (normalizeDomain N)).drop i) ∈ e.customBlocked))))
    ∧ ShouldBlock e sched now [] client = false := by
  have hempty : normalizeDomain ([] : GoStr) = [] := by decide
  constructor
  · by_cases h0 : normalizeDomain N = []
    · have hfalse : ShouldBlock e sched now N client = false := by
        simp [ShouldBlock, h0]
      rw [hfalse]
      constructor
      · intro hco
        exact absurd hco (by decide)
      · rintro ⟨-, h | h | ⟨i, h1, h2, -⟩⟩
        · rw [h0] at h
          exact absurd h hc
        · rw [h0] at h
          exact absurd h hb
        · rw [h0] at h2
          simp [splitOnDot] at h2
          omega
    · by_cases hwl : isWhitelisted e.whitelist (normalizeDomain N) = true
      · have hfalse : ShouldBlock e sched now N client = false := by
          simp [ShouldBlock, h0, hwl]
        rw [hfalse]
        constructor
        · intro hco
          exact absurd hco (by decide)
        · rintro ⟨hwlf, -⟩
          rw [hwl] at hwlf
          exact absurd hwlf (by decide)
      · have hwl' : isWhitelisted e.whitelist (normalizeDomain N) = false := by
          simpa using hwl
        have hss : scheduleStrict sched now = false := by
          simp [scheduleStrict, hs]
        simp [ShouldBlock, h0, hwl', hss, blocklistHit_iff]
  · simp [ShouldBlock, hempty]

/-- Witness for C1 at a concrete state: blocklist containing example.com,
empty whitelist, schedule disabled, query ads.example.com. -/
theorem shouldBlock_suffix_characterization_witness :
    (([] : GoStr) ∉ ({"example.com".toList} : Finset GoStr)) ∧
    ((ShouldBlock ⟨{"example.com".toList}, ∅, ∅⟩ ⟨false, []⟩
        ⟨"Monday".toList, "10:00".toList⟩ "ads.example.com".toList "1.2.3.4".toList = true ↔
      (isWhitelisted ∅ (normalizeDomain "ads.example.com".toList) = false ∧
        (normalizeDomain "ads.example.com".toList ∈ (∅ : Finset GoStr) ∨
         normalizeDomain "ads.example.com".toList ∈ ({"example.com".toList} : Finset GoStr) ∨
          ∃ i, 1 ≤ i ∧ i < (splitOnDot (normalizeDomain "ads.example.com".toList)).length ∧
            (joinDot ((splitOnDot (normalizeDomain "ads.example.com".toList)).drop i) ∈
                ({"example.com".toList} : Finset GoStr) ∨
             joinDot ((splitOnDot (normalizeDomain "ads.example.com".toList)).drop i) ∈
                (∅ : Finset GoStr)))))
    ∧ ShouldBlock ⟨{"example.com".toList}, ∅, ∅⟩ ⟨false, []⟩
        ⟨"Monday".toList, "10:00".toList⟩ [] "1.2.3.4".toList = false) :=
  ⟨by decide, shouldBlock_suffix_characterization
    ⟨{"example.com".toList}, ∅, ∅⟩ ⟨false, []⟩ ⟨"Monday".toList, "10:00".toList⟩
    "ads.example.com".toList "1.2.3.4".toList (by decide) (by decide) rfl⟩

/-- Claim C2 counterexample: with blocklist example.com and whitelist
`*.example.com`, the claim asserts that a query for example.com is blocked;
the code returns false, because `strings.TrimPrefix` of the wildcard yields
the pattern example.com and example.com is a string suffix of itself, so the
apex name is whitelisted. -/
theorem apexQuery_not_blocked_counterexample :
    ShouldBlock ⟨{"example.com".toList}, ∅, {"*.example.com".toList}⟩ ⟨false, []⟩
      ⟨"Monday".toList, "10:00".toList⟩ "example.com".toList "1.2.3.4".toList = false := by
  decide

/-- Claim C2 amended: with blocked set example.com and whitelist
`*.example.com`, the query www.example.com is forwarded (not blocked), and
the query example.com is ALSO forwarded, because the wildcard pattern after
stripping the leading star-dot is the string example.com, which example.com
ends with, so the apex name is wildcard-whitelisted. -/
theorem apexQuery_whitelisted_by_wildcard :
    ShouldBlock ⟨{"example.com".toList}, ∅, {"*.example.com".toList}⟩ ⟨false, []⟩
      ⟨"Monday".toList, "10:00".toList⟩ "www.example.com".toList "1.2.3.4".toList = false ∧
    ShouldBlock ⟨{"example.com".toList}, ∅, {"*.example.com".toList}⟩ ⟨false, []⟩
      ⟨"Monday".toList, "10:00".toList⟩ "example.com".toList "1.2.3.4".toList = false ∧
    isWhitelisted {"*.example.com".toList} "example.com".toList = true ∧
    trimStarDot "*.example.com".toList = "example.com".toList := by
  decide

/-- Claim C3 counterexample: two schedule rules, the first (monday, not
strict) does not match the current instant, the second (tuesday, strict)
does match; the claim says the matching rule being strict forces every
non-empty non-whitelisted name to be blocked, but the code consults only
`Rules[0].StrictMode` and returns false for a name outside the blocklists. -/
theorem scheduleStrict_matching_rule_counterexample :
    ruleMatches ⟨"r1".toList, ["tuesday".toList], "00:00".toList, "23:59".toList, true⟩
      ⟨"Tuesday".toList, "12:00".toList⟩ = true ∧
    ruleMatches ⟨"r0".toList, ["monday".toList], "00:00".toList, "23:59".toList, false⟩
      ⟨"Tuesday".toList, "12:00".toList⟩ = false ∧
    isInAllowedTime
      [⟨"r0".toList, ["monday".toList], "00:00".toList, "23:59".toList, false⟩,
       ⟨"r1".toList, ["tuesday".toList], "00:00".toList, "23:59".toList, true⟩]
      ⟨"Tuesday".toList, "12:00".toList⟩ = false ∧
    normalizeDomain "foo.test".toList ≠ [] ∧
    isWhitelisted ∅ (normalizeDomain "foo.test".toList) = false ∧
    ShouldBlock ⟨∅, ∅, ∅⟩
      ⟨true, [⟨"r0".toList, ["monday".toList], "00:00".toList, "23:59".toList, false⟩,
              ⟨"r1".toList, ["tuesday".toList], "00:00".toList, "23:59".toList, true⟩]⟩
      ⟨"Tuesday".toList, "12:00".toList⟩ "foo.test".toList "1.2.3.4".toList = false := by
  decide

/-- Claim C3 amended: when the schedule is enabled and the current instant
is inside the window of some matching rule, a non-empty, non-whitelisted
name that is not matched by the blocklists is blocked if and only if the
FIRST rule of the rules list has strictMode set: the strict-blocking
decision is taken from `Rules[0].StrictMode`, not from the rule that
matched. -/
theorem scheduleStrict_uses_first_rule
    (e : Engine) (sched : ScheduleConfig) (now : Instant) (d client : GoStr)
    (hEn : sched.Enabled = true)
    (hWin : isInAllowedTime sched.Rules now = false)
    (hne : normalizeDomain d ≠ [])
    (hwl : isWhitelisted e.whitelist (normalizeDomain d) = false)
    (hnb : blocklistHit e (normalizeDomain d) = false) :
    ShouldBlock e sched now d client = scheduleHeadStrict sched.Rules := by
  simp only [ShouldBlock]
  have hss : scheduleStrict sched now = scheduleHeadStrict sched.Rules := by
    simp [scheduleStrict, hEn, hWin]
  cases h : scheduleHeadStrict sched.Rules <;>
    simp [hne, hwl, hss, h, hnb]

/-- Witness for the amended C3 at a concrete state: a single strict rule
matching the current instant, empty sets, name bar.test. -/
theorem scheduleStrict_uses_first_rule_witness :
    ShouldBlock ⟨∅, ∅, ∅⟩
      ⟨true, [⟨"r".toList, ["tuesday".toList], "00:00".toList, "23:59".toList, true⟩]⟩
      ⟨"Tuesday".toList, "12:00".toList⟩ "bar.test".toList "1.2.3.4".toList =
      scheduleHeadStrict
        [⟨"r".toList, ["tuesday".toList], "00:00".toList, "23:59".toList, true⟩] :=
  scheduleStrict_uses_first_rule ⟨∅, ∅, ∅⟩
    ⟨true, [⟨"r".toList, ["tuesday".toList], "00:00".toList, "23:59".toList, true⟩]⟩
    ⟨"Tuesday".toList, "12:00".toList⟩ "bar.test".toList "1.2.3.4".toList
    rfl (by decide) (by decide) (by decide) (by decide)

/-- Any insertion performed by a single `handleDNSRequest` call is the
upstream response of that call, with NOERROR rcode and a non-empty answer
section. -/
theorem handle_inserted_sound (cfg : FilteringCfg) (e : Engine) (now : Instant)
    (nowT : Nat) (clientIP : GoStr) (upstream : Option DnsMsg) (cache : DNSCache)
    (stats : Statistics) (r : DnsMsg) :
    ∀ p ∈ (handleDNSRequest cfg e now nowT clientIP upstream cache stats r).inserted,
      upstream = some p.2 ∧ p.2.rcode = 0 ∧ p.2.answer ≠ [] := by
  intro p hp
  unfold handleDNSRequest at hp
  dsimp only at hp
  split at hp
  · simp at hp
  · split at hp
    · simp at hp
    · split at hp
      · unfold handleBlockedDomain at hp
        simp at hp
      · unfold forwardToUpstream at hp
        split at hp
        · simp at hp
        · split at hp
          · rename_i hcond
            simp only [List.mem_singleton] at hp
            subst hp
            exact ⟨rfl, hcond.1, hcond.2⟩
          · simp at hp

/-- Claim C4: over any sequence of handled queries, every response inserted
into the DNS cache is the upstream reply of one of the handled queries, has
rcode NOERROR (0) and a non-empty answer section; block responses and
SERVFAIL replies are never inserted. -/
theorem cache_insertions_upstream_only (cfg : FilteringCfg) (e : Engine)
    (stats : Statistics) (cache : DNSCache) (evs : List QueryEvent) :
    ∀ p ∈ (handleAll cfg e stats cache evs).2.2,
      p.2.rcode = 0 ∧ p.2.answer ≠ [] ∧ ∃ ev ∈ evs, ev.upstream = some p.2 := by
  induction evs generalizing stats cache with
  | nil =>
    intro p hp
    simp [handleAll] at hp
  | cons ev rest ih =>
    intro p hp
    unfold handleAll at hp
    dsimp only at hp
    rw [List.mem_append] at hp
    rcases hp with hp | hp
    · obtain ⟨hu, h0, hne⟩ := handle_inserted_sound cfg e ev.now ev.nowT ev.clientIP
        ev.upstream cache stats ev.req p hp
      exact ⟨h0, hne, ev, List.mem_cons_self _ _, hu⟩
    · obtain ⟨h0, hne, ev2, hmem, hu⟩ := ih _ _ p hp
      exact ⟨h0, hne, ev2, List.mem_cons_of_mem _ hmem, hu⟩

/-- Witness for C4: one handled query whose upstream reply (rcode 0, one A
answer) is the only insertion the run performs. -/
theorem cache_insertions_upstream_only_witness :
    (⟨7, 0, false, [⟨"foo.test.".toList, 1⟩],
       [⟨"foo.test.".toList, 1, 60, "1.2.3.4".toList⟩]⟩ : DnsMsg).rcode = 0 ∧
    (⟨7, 0, false, [⟨"foo.test.".toList, 1⟩],
       [⟨"foo.test.".toList, 1, 60, "1.2.3.4".toList⟩]⟩ : DnsMsg).answer ≠ [] ∧
    ∃ ev ∈ [(⟨⟨"Monday".toList, "10:00".toList⟩, 0, "1.1.1.1".toList,
        some ⟨7, 0, false, [⟨"foo.test.".toList, 1⟩],
          [⟨"foo.test.".toList, 1, 60, "1.2.3.4".toList⟩]⟩,
        ⟨7, 0, false, [⟨"foo.test.".toList, 1⟩], []⟩⟩ : QueryEvent)],
      ev.upstream = some ⟨7, 0, false, [⟨"foo.test.".toList, 1⟩],
        [⟨"foo.test.".toList, 1, 60, "1.2.3.4".toList⟩]⟩ :=
  cache_insertions_upstream_only
    ⟨false, "nxdomain".toList, "0.0.0.0".toList, ⟨false, []⟩⟩ ⟨∅, ∅, ∅⟩
    ⟨0, 0, 0⟩ ⟨[], 100, 3600⟩
    [⟨⟨"Monday".toList, "10:00".toList⟩, 0, "1.1.1.1".toList,
      some ⟨7, 0, false, [⟨"foo.test.".toList, 1⟩],
        [⟨"foo.test.".toList, 1, 60, "1.2.3.4".toList⟩]⟩,
      ⟨7, 0, false, [⟨"foo.test.".toList, 1⟩], []⟩⟩]
    (DNSCache.makeKey "foo.test.".toList 1,
      ⟨7, 0, false, [⟨"foo.test.".toList, 1⟩],
        [⟨"foo.test.".toList, 1, 60, "1.2.3.4".toList⟩]⟩)
    (by decide)

/-- Claim C7 counterexample: after handling an upstream-answered query for
the raw name Foo.Test., the cached entry is found again only under the
identical raw name; a lookup with the name foo.test — equal up to letter
case and trailing dot, with the same normalized form — misses, so the two
queries do NOT share a cache entry. -/
theorem cacheKey_not_normalized_counterexample :
    normalizeDomain "Foo.Test.".toList = normalizeDomain "foo.test".toList ∧
    DNSCache.Get
      (handleDNSRequest ⟨false, "nxdomain".toList, "0.0.0.0".toList, ⟨false, []⟩⟩
        ⟨∅, ∅, ∅⟩ ⟨"Monday".toList, "10:00".toList⟩ 0 "1.1.1.1".toList
        (some ⟨7, 0, false, [⟨"Foo.Test.".toList, 1⟩],
          [⟨"Foo.Test.".toList, 1, 60, "1.2.3.4".toList⟩]⟩)
        ⟨[], 100, 3600⟩ ⟨0, 0, 0⟩
        ⟨7, 0, false, [⟨"Foo.Test.".toList, 1⟩], []⟩).cache
      0 "Foo.Test.".toList 1
      = some ⟨7, 0, false, [⟨"Foo.Test.".toList, 1⟩],
          [⟨"Foo.Test.".toList, 1, 60, "1.2.3.4".toList⟩]⟩ ∧
    DNSCache.Get
      (handleDNSRequest ⟨false, "nxdomain".toList, "0.0.0.0".toList, ⟨false, []⟩⟩
        ⟨∅, ∅, ∅⟩ ⟨"Monday".toList, "10:00".toList⟩ 0 "1.1.1.1".toList
        (some ⟨7, 0, false, [⟨"Foo.Test.".toList, 1⟩],
          [⟨"Foo.Test.".toList, 1, 60, "1.2.3.4".toList⟩]⟩)
        ⟨[], 100, 3600⟩ ⟨0, 0, 0⟩
        ⟨7, 0, false, [⟨"Foo.Test.".toList, 1⟩], []⟩).cache
      0 "foo.test".toList 1 = none := by
  decide

/-- The observable outcome of `forwardToUpstream` (reply, insertions,
statistics) does not depend on the cache contents. -/
theorem forwardToUpstream_cache_irrel (stats : Statistics) (cache cache2 : DNSCache)
    (nowT : Nat) (upstream : Option DnsMsg) (m : DnsMsg) (domain : GoStr) (qtype : Nat) :
    (forwardToUpstream stats cache2 nowT upstream m domain qtype).reply
      = (forwardToUpstream stats cache nowT upstream m domain qtype).reply ∧
    (forwardToUpstream stats cache2 nowT upstream m domain qtype).inserted
      = (forwardToUpstream stats cache nowT upstream m domain qtype).inserted ∧
    (forwardToUpstream stats cache2 nowT upstream m domain qtype).stats
      = (forwardToUpstream stats cache nowT upstream m domain qtype).stats := by
  cases upstream with
  | none => exact ⟨rfl, rfl, rfl⟩
  | some resp =>
    by_cases hc : resp.rcode = 0 ∧ resp.answer ≠ []
    · simp only [forwardToUpstream, if_pos hc]
      exact ⟨trivial, trivial, trivial⟩
    · simp only [forwardToUpstream, if_neg hc]
      exact ⟨trivial, trivial, trivial⟩

/-- Claim C7 amended: both the cache lookup and every cache insertion of a
handled query use the key built by `makeKey` from the RAW first-question
name (letter case and trailing dot preserved — no normalization) paired
with the record type: every insertion carries that key, and the whole
observable outcome of the handler depends on the cache only through the
lookup at that key. -/
theorem cacheKey_uses_raw_name (cfg : FilteringCfg) (e : Engine) (now : Instant)
    (nowT : Nat) (clientIP : GoStr) (upstream : Option DnsMsg) (cache : DNSCache)
    (stats : Statistics) (r : DnsMsg) (q : DnsQuestion) (rest : List DnsQuestion)
    (h : r.question = q :: rest) :
    (∀ p ∈ (handleDNSRequest cfg e now nowT clientIP upstream cache stats r).inserted,
        p.1 = DNSCache.makeKey q.name q.qtype) ∧
    (∀ cache2 : DNSCache,
        cache2.Get nowT q.name q.qtype = cache.Get nowT q.name q.qtype →
        (handleDNSRequest cfg e now nowT clientIP upstream cache2 stats r).reply
          = (handleDNSRequest cfg e now nowT clientIP upstream cache stats r).reply ∧
        (handleDNSRequest cfg e now nowT clientIP upstream cache2 stats r).inserted
          = (handleDNSRequest cfg e now nowT clientIP upstream cache stats r).inserted ∧
        (handleDNSRequest cfg e now nowT clientIP upstream cache2 stats r).stats
          = (handleDNSRequest cfg e now nowT clientIP upstream cache stats r).stats) := by
  constructor
  · intro p hp
    unfold handleDNSRequest at hp
    rw [h] at hp
    dsimp only at hp
    split at hp
    · simp at hp
    · split at hp
      · unfold handleBlockedDomain at hp
        simp at hp
      · unfold forwardToUpstream at hp
        split at hp
        · simp at hp
        · split at hp
          · simp only [List.mem_singleton] at hp
            subst hp
            rfl
          · simp at hp
  · intro cache2 hg
    unfold handleDNSRequest
    rw [h]
    dsimp only
    rw [hg]
    cases hG : cache.Get nowT q.name q.qtype with
    | some a => exact ⟨rfl, rfl, rfl⟩
    | none =>
      by_cases hB : (cfg.Enabled && ShouldBlock e cfg.Schedule now q.name clientIP) = true
      · simp only [if_pos hB]
        exact ⟨rfl, rfl, rfl⟩
      · simp only [if_neg hB]
        exact forwardToUpstream_cache_irrel _ cache cache2 _ _ _ _ _

/-- Witness for the amended C7: for a concrete query on the raw name
Foo.Test., a second cache differing only at other keys produces the same
reply, the same insertions and the same statistics. -/
theorem cacheKey_uses_raw_name_witness :
    (handleDNSRequest ⟨false, "nxdomain".toList, "0.0.0.0".toList, ⟨false, []⟩⟩
        ⟨∅, ∅, ∅⟩ ⟨"Monday".toList, "10:00".toList⟩ 0 "1.1.1.1".toList
        (some ⟨7, 0, false, [⟨"Foo.Test.".toList, 1⟩],
          [⟨"Foo.Test.".toList, 1, 60, "1.2.3.4".toList⟩]⟩)
        ⟨[(DNSCache.makeKey "Zzz.".toList 1, ⟨⟨3, 0, false, [], []⟩, 0⟩)], 100, 3600⟩ ⟨0, 0, 0⟩
        ⟨7, 0, false, [⟨"Foo.Test.".toList, 1⟩], []⟩).reply
      = (handleDNSRequest ⟨false, "nxdomain".toList, "0.0.0.0".toList, ⟨false, []⟩⟩
        ⟨∅, ∅, ∅⟩ ⟨"Monday".toList, "10:00".toList⟩ 0 "1.1.1.1".toList
        (some ⟨7, 0, false, [⟨"Foo.Test.".toList, 1⟩],
          [⟨"Foo.Test.".toList, 1, 60, "1.2.3.4".toList⟩]⟩)
        ⟨[], 100, 3600⟩ ⟨0, 0, 0⟩
        ⟨7, 0, false, [⟨"Foo.Test.".toList, 1⟩], []⟩).reply ∧
    (handleDNSRequest ⟨false, "nxdomain".toList, "0.0.0.0".toList, ⟨false, []⟩⟩
        ⟨∅, ∅, ∅⟩ ⟨"Monday".toList, "10:00".toList⟩ 0 "1.1.1.1".toList
        (some ⟨7, 0, false, [⟨"Foo.Test.".toList, 1⟩],
          [⟨"Foo.Test.".toList, 1, 60, "1.2.3.4".toList⟩]⟩)
        ⟨[(DNSCache.makeKey "Zzz.".toList 1, ⟨⟨3, 0, false, [], []⟩, 0⟩)], 100, 3600⟩ ⟨0, 0, 0⟩
        ⟨7, 0, false, [⟨"Foo.Test.".toList, 1⟩], []⟩).inserted
      = (handleDNSRequest ⟨false, "nxdomain".toList, "0.0.0.0".toList, ⟨false, []⟩⟩
        ⟨∅, ∅, ∅⟩ ⟨"Monday".toList, "10:00".toList⟩ 0 "1.1.1.1".toList
        (some ⟨7, 0, false, [⟨"Foo.Test.".toList, 1⟩],
          [⟨"Foo.Test.".toList, 1, 60, "1.2.3.4".toList⟩]⟩)
        ⟨[], 100, 3600⟩ ⟨0, 0, 0⟩
        ⟨7, 0, false, [⟨"Foo.Test.".toList, 1⟩], []⟩).inserted ∧
    (handleDNSRequest ⟨false, "nxdomain".toList, "0.0.0.0".toList, ⟨false, []⟩⟩
        ⟨∅, ∅, ∅⟩ ⟨"Monday".toList, "10:00".toList⟩ 0 "1.1.1.1".toList
        (some ⟨7, 0, false, [⟨"Foo.Test.".toList, 1⟩],
          [⟨"Foo.Test.".toList, 1, 60, "1.2.3.4".toList⟩]⟩)
        ⟨[(DNSCache.makeKey "Zzz.".toList 1, ⟨⟨3, 0, false, [], []⟩, 0⟩)], 100, 3600⟩ ⟨0, 0, 0⟩
        ⟨7, 0, false, [⟨"Foo.Test.".toList, 1⟩], []⟩).stats
      = (handleDNSRequest ⟨false, "nxdomain".toList, "0.0.0.0".toList, ⟨false, []⟩⟩
        ⟨∅, ∅, ∅⟩ ⟨"Monday".toList, "10:00".toList⟩ 0 "1.1.1.1".toList
        (some ⟨7, 0, false, [⟨"Foo.Test.".toList, 1⟩],
          [⟨"Foo.Test.".toList, 1, 60, "1.2.3.4".toList⟩]⟩)
        ⟨[], 100, 3600⟩ ⟨0, 0, 0⟩
        ⟨7, 0, false, [⟨"Foo.Test.".toList, 1⟩], []⟩).stats :=
  (cacheKey_uses_raw_name ⟨false, "nxdomain".toList, "0.0.0.0".toList, ⟨false, []⟩⟩
    ⟨∅, ∅, ∅⟩ ⟨"Monday".toList, "10:00".toList⟩ 0 "1.1.1.1".toList
    (some ⟨7, 0, false, [⟨"Foo.Test.".toList, 1⟩],
      [⟨"Foo.Test.".toList, 1, 60, "1.2.3.4".toList⟩]⟩)
    ⟨[], 100, 3600⟩ ⟨0, 0, 0⟩
    ⟨7, 0, false, [⟨"Foo.Test.".toList, 1⟩], []⟩
    ⟨"Foo.Test.".toList, 1⟩ [] rfl).2
    ⟨[(DNSCache.makeKey "Zzz.".toList 1, ⟨⟨3, 0, false, [], []⟩, 0⟩)], 100, 3600⟩
    (by decide)

/-- Claim C10: every handled DNS message bumps the total-queries counter by
exactly one (uint64 arithmetic), and a message with zero questions is
answered with the empty reply and processed no further: the cache is
untouched, nothing is inserted, and the blocked and cached counters keep
their values. -/
theorem handle_counts_every_message (cfg : FilteringCfg) (e : Engine) (now : Instant)
    (nowT : Nat) (clientIP : GoStr) (upstream : Option DnsMsg) (cache : DNSCache)
    (stats : Statistics) (r : DnsMsg) :
    (handleDNSRequest cfg e now nowT clientIP upstream cache stats r).stats.TotalQueries
      = (stats.TotalQueries + 1) % 2 ^ 64 ∧
    (r.question = [] →
      handleDNSRequest cfg e now nowT clientIP upstream cache stats r
        = ⟨setReplyNew r,
           ⟨(stats.TotalQueries + 1) % 2 ^ 64, stats.BlockedQueries, stats.CachedResponses⟩,
           cache, []⟩) := by
  constructor
  · unfold handleDNSRequest
    dsimp only
    split
    · rfl
    · split
      · rfl
      · split
        · rfl
        · unfold forwardToUpstream
          split
          · rfl
          · split
            · rfl
            · rfl
  · intro h
    unfold handleDNSRequest
    rw [h]

/-- Witness for C10 at a concrete zero-question message: the total counter
moves from 5 to 6 and the result is exactly the empty reply with everything
else unchanged. -/
theorem handle_counts_every_message_witness :
    (handleDNSRequest ⟨true, "nxdomain".toList, "0.0.0.0".toList, ⟨false, []⟩⟩
      ⟨∅, ∅, ∅⟩ ⟨"Monday".toList, "10:00".toList⟩ 0 "1.1.1.1".toList none
      ⟨[], 100, 3600⟩ ⟨5, 2, 1⟩ ⟨9, 0, false, [], []⟩).stats.TotalQueries
      = (5 + 1) % 2 ^ 64 ∧
    handleDNSRequest ⟨true, "nxdomain".toList, "0.0.0.0".toList, ⟨false, []⟩⟩
      ⟨∅, ∅, ∅⟩ ⟨"Monday".toList, "10:00".toList⟩ 0 "1.1.1.1".toList none
      ⟨[], 100, 3600⟩ ⟨5, 2, 1⟩ ⟨9, 0, false, [], []⟩
      = ⟨setReplyNew ⟨9, 0, false, [], []⟩, ⟨(5 + 1) % 2 ^ 64, 2, 1⟩, ⟨[], 100, 3600⟩, []⟩ := by
  have h := handle_counts_every_message
    ⟨true, "nxdomain".toList, "0.0.0.0".toList, ⟨false, []⟩⟩ ⟨∅, ∅, ∅⟩
    ⟨"Monday".toList, "10:00".toList⟩ 0 "1.1.1.1".toList none
    ⟨[], 100, 3600⟩ ⟨5, 2, 1⟩ ⟨9, 0, false, [], []⟩
  exact ⟨h.1, h.2 rfl⟩

/-- Folding insertions of a list into a Finset yields the union with the
list converted to a Finset. -/
theorem insertFold_spec (l : List GoStr) (s : Finset GoStr) :
    l.foldl (fun s d => insert d s) s = s ∪ l.toFinset := by
  induction l generalizing s with
  | nil => simp
  | cons d rest ih =>
    simp [List.foldl_cons, ih, Finset.insert_union, Finset.union_insert]

/-- The entry loop of `loadCustomYAMLBlocklists`, characterized: the set
grows by the selected domains of the entries, and the count by the number
of enabled entries with a non-empty normalized domain. -/
theorem entriesFold_spec (entries : List CustomBlocklistEntry) (acc : Finset GoStr × Nat) :
    entries.foldl customEntryStep acc
      = (acc.1 ∪ (entries.filterMap entrySel).toFinset,
         acc.2 + entries.countP entryPred) := by
  induction entries generalizing acc with
  | nil => simp
  | cons en rest ih =>
    simp only [List.foldl_cons, List.filterMap_cons, List.countP_cons]
    by_cases hEn : en.Enabled
    · by_cases hD : normalizeDomain en.Domain = []
      · have hstep : customEntryStep acc en = acc := by
          simp [customEntryStep, hEn, hD]
        have hsel : entrySel en = none := by
          simp [entrySel, hEn, hD]
        have hpred : entryPred en = false := by
          simp [entryPred, hD]
        rw [hstep, ih, hsel, hpred]
        simp
      · have hstep : customEntryStep acc en
            = (insert (normalizeDomain en.Domain) acc.1, acc.2 + 1) := by
          simp [customEntryStep, hEn, hD]
        have hsel : entrySel en = some (normalizeDomain en.Domain) := by
          simp [entrySel, hEn, hD]
        have hpred : entryPred en = true := by
          simp [entryPred, hEn, hD]
        rw [hstep, ih, hsel, hpred]
        refine Prod.ext ?_ ?_
        · simp [Finset.insert_union, Finset.union_insert]
        · simp
          omega
    · have hstep : customEntryStep acc en = acc := by
        simp [customEntryStep, hEn]
      have hsel : entrySel en = none := by
        simp [entrySel, hEn]
      have hpred : entryPred en = false := by
        simp [entryPred, hEn]
      rw [hstep, ih, hsel, hpred]
      simp

/-- The file loop of `loadCustomYAMLBlocklists`, characterized by
`filesDomains` and `countEnabledEntries`. -/
theorem filesFold_spec (files : List (Option CustomBlocklist)) (acc : Finset GoStr × Nat) :
    files.foldl customFileStep acc
      = (acc.1 ∪ filesDomains files, acc.2 + countEnabledEntries files) := by
  induction files generalizing acc with
  | nil => simp [filesDomains, countEnabledEntries]
  | cons file rest ih =>
    cases file with
    | none =>
      simp only [List.foldl_cons, customFileStep]
      rw [ih]
      simp [filesDomains, countEnabledEntries]
    | some bl =>
      simp only [List.foldl_cons, customFileStep]
      rw [entriesFold_spec, ih]
      refine Prod.ext ?_ ?_
      · simp [filesDomains, enabledDomains, Finset.union_assoc]
      · simp [countEnabledEntries]
        omega

/-- The function `loadCustomYAMLBlocklists` computes exactly the specification-side set
and count. -/
theorem loadCustom_spec (files : List (Option CustomBlocklist)) :
    loadCustomYAMLBlocklists files = (filesDomains files, countEnabledEntries files) := by
  unfold loadCustomYAMLBlocklists
  rw [filesFold_spec]
  simp

/-- Membership in the specification-side custom file set, element-wise. -/
theorem mem_filesDomains (files : List (Option CustomBlocklist)) (d : GoStr) :
    d ∈ filesDomains files ↔
      ∃ bl, some bl ∈ files ∧ ∃ entry ∈ bl.Domains,
        entry.Enabled = true ∧ normalizeDomain entry.Domain ≠ [] ∧
        normalizeDomain entry.Domain = d := by
  induction files with
  | nil => simp [filesDomains]
  | cons file rest ih =>
    cases file with
    | none =>
      have hfd : filesDomains (none :: rest) = filesDomains rest := by
        simp [filesDomains]
      rw [hfd, ih]
      constructor
      · rintro ⟨bl, hbl, hrest⟩
        exact ⟨bl, List.mem_cons_of_mem _ hbl, hrest⟩
      · rintro ⟨bl, hbl, hrest⟩
        rcases List.mem_cons.1 hbl with hbad | hbl2
        · exact absurd hbad (by simp)
        · exact ⟨bl, hbl2, hrest⟩
    | some bl0 =>
      have hfd : filesDomains (some bl0 :: rest)
          = (enabledDomains bl0).toFinset ∪ filesDomains rest := by
        simp [filesDomains]
      rw [hfd]
      simp only [Finset.mem_union, List.mem_toFinset, enabledDomains,
        List.mem_filterMap, ih]
      constructor
      · rintro (⟨entry, hen, hsel⟩ | ⟨bl, hbl, hrest⟩)
        · refine ⟨bl0, List.mem_cons_self _ _, entry, hen, ?_⟩
          unfold entrySel at hsel
          by_cases hcond : entry.Enabled = true ∧ normalizeDomain entry.Domain ≠ []
          · rw [if_pos hcond] at hsel
            exact ⟨hcond.1, hcond.2, Option.some.inj hsel⟩
          · rw [if_neg hcond] at hsel
            exact absurd hsel (by simp)
        · exact ⟨bl, List.mem_cons_of_mem _ hbl, hrest⟩
      · rintro ⟨bl, hbl, entry, hen, hE, hne, hd⟩
        rcases List.mem_cons.1 hbl with hbl0 | hbl2
        · left
          refine ⟨entry, ?_, ?_⟩
          · rw [show bl0 = bl from (Option.some.inj hbl0).symm]
            exact hen
          · unfold entrySel
            rw [if_pos ⟨hE, hne⟩, hd]
        · right
          exact ⟨bl, hbl2, entry, hen, hE, hne, hd⟩

/-- The source loop of `UpdateBlocklists`, characterized by `srcUnion`. -/
theorem sourceFold_spec (sources : List BlocklistSource) (acc : Finset GoStr) :
    sources.foldl sourceStep acc = acc ∪ srcUnion sources := by
  induction sources generalizing acc with
  | nil => simp [srcUnion]
  | cons src rest ih =>
    simp only [List.foldl_cons]
    by_cases hEn : src.Enabled
    · cases hf : src.fetchResult with
      | none =>
        have hstep : sourceStep acc src = acc := by
          simp [sourceStep, hEn, hf]
        have hsu : srcUnion (src :: rest) = srcUnion rest := by
          simp [srcUnion, hEn, hf]
        rw [hstep, ih, hsu]
      | some domains =>
        have hstep : sourceStep acc src = acc ∪ domains.toFinset := by
          simp [sourceStep, hEn, hf, insertFold_spec]
        have hsu : srcUnion (src :: rest) = domains.toFinset ∪ srcUnion rest := by
          simp [srcUnion, hEn, hf]
        rw [hstep, ih, hsu, Finset.union_assoc]
    · have hstep : sourceStep acc src = acc := by
        simp [sourceStep, hEn]
      have hsu : srcUnion (src :: rest) = srcUnion rest := by
        simp [srcUnion, hEn]
      rw [hstep, ih, hsu]

/-- Claim C5 counterexample: a domain present in `customBlocked` before the
reload but absent from every custom file is STILL present afterwards — the
reload unions new entries in instead of rebuilding the set. -/
theorem reloadCustom_keeps_stale_counterexample :
    (loadCustomYAMLBlocklists
        [some ⟨"1".toList, "today".toList, [⟨"new.test".toList, [], [], true⟩]⟩]).1
      = {"new.test".toList} ∧
    "old.test".toList ∉
      (loadCustomYAMLBlocklists
        [some ⟨"1".toList, "today".toList, [⟨"new.test".toList, [], [], true⟩]⟩]).1 ∧
    "old.test".toList ∈
      (ReloadCustomBlocklists ⟨{"r.test".toList}, {"old.test".toList}, ∅⟩
        [some ⟨"1".toList, "today".toList, [⟨"new.test".toList, [], [], true⟩]⟩]).1.customBlocked := by
  decide

/-- Claim C5 amended: after `ReloadCustomBlocklists`, the custom set is the
UNION of its previous contents with the normalized enabled entries of the
matched files — stale entries are retained, not removed; the remote set and
the whitelist are untouched, and the returned value is the count of enabled
entries with a non-empty normalized domain. -/
theorem reloadCustom_unions_not_rebuilds (e : Engine)
    (files : List (Option CustomBlocklist)) :
    (∀ d, d ∈ (ReloadCustomBlocklists e files).1.customBlocked ↔
        (d ∈ e.customBlocked ∨ ∃ bl, some bl ∈ files ∧ ∃ entry ∈ bl.Domains,
          entry.Enabled = true ∧ normalizeDomain entry.Domain ≠ [] ∧
          normalizeDomain entry.Domain = d)) ∧
    (ReloadCustomBlocklists e files).1.blockedDomains = e.blockedDomains ∧
    (ReloadCustomBlocklists e files).1.whitelist = e.whitelist ∧
    (ReloadCustomBlocklists e files).2 = countEnabledEntries files := by
  refine ⟨fun d => ?_, rfl, rfl, ?_⟩
  · show d ∈ e.customBlocked ∪ (loadCustomYAMLBlocklists files).1 ↔ _
    rw [loadCustom_spec]
    rw [Finset.mem_union, mem_filesDomains]
  · show (loadCustomYAMLBlocklists files).2 = _
    rw [loadCustom_spec]

/-- Claim C6 counterexample: one enabled source yields x.test while x.test
is also in the runtime custom set; after the update `GetBlockedCount` is 2,
but the de-duplicated union of the sources' outputs and the custom set has
cardinality 1 — the overlap is counted twice. -/
theorem blockedCount_double_counts_counterexample :
    GetBlockedCount (UpdateBlocklists ⟨∅, {"x.test".toList}, ∅⟩
      [⟨"s".toList, "u".toList, [], true, some ["x.test".toList]⟩] []).1 = 2 ∧
    (srcUnion [⟨"s".toList, "u".toList, [], true, some ["x.test".toList]⟩]
      ∪ (UpdateBlocklists ⟨∅, {"x.test".toList}, ∅⟩
          [⟨"s".toList, "u".toList, [], true, some ["x.test".toList]⟩] []).1.customBlocked).card
      = 1 := by
  decide

/-- Claim C6 amended: after `UpdateBlocklists`, the rebuilt remote set is
exactly the de-duplicated union of the enabled successful sources' outputs
and the custom-file domains (so a domain repeated across sources counts
once), and `GetBlockedCount` is the cardinality of that union PLUS the
cardinality of the runtime custom set — a domain present in both is counted
twice; the count equals the cardinality of the full de-duplicated union
exactly when the runtime custom set is disjoint from the rebuilt set. -/
theorem updateAll_blocked_count (e : Engine) (sources : List BlocklistSource)
    (files : List (Option CustomBlocklist)) :
    (UpdateBlocklists e sources files).1.blockedDomains
      = srcUnion sources ∪ filesDomains files ∧
    GetBlockedCount (UpdateBlocklists e sources files).1
      = (srcUnion sources ∪ filesDomains files).card + e.customBlocked.card ∧
    (Disjoint (srcUnion sources ∪ filesDomains files) e.customBlocked →
      GetBlockedCount (UpdateBlocklists e sources files).1
        = ((srcUnion sources ∪ filesDomains files) ∪ e.customBlocked).card) := by
  have hset : (UpdateBlocklists e sources files).1.blockedDomains
      = srcUnion sources ∪ filesDomains files := by
    show sources.foldl sourceStep ∅ ∪ (loadCustomYAMLBlocklists files).1 = _
    rw [sourceFold_spec, loadCustom_spec]
    simp
  refine ⟨hset, ?_, ?_⟩
  · show (UpdateBlocklists e sources files).1.blockedDomains.card
        + (UpdateBlocklists e sources files).1.customBlocked.card = _
    rw [hset]
    rfl
  · intro hdisj
    show (UpdateBlocklists e sources files).1.blockedDomains.card
        + (UpdateBlocklists e sources files).1.customBlocked.card = _
    rw [hset]
    have : (UpdateBlocklists e sources files).1.customBlocked = e.customBlocked := rfl
    rw [this, Finset.card_union_of_disjoint hdisj]

/-- Witness for the amended C6 at a concrete state with the rebuilt set
disjoint from the custom set. -/
theorem updateAll_blocked_count_witness :
    (UpdateBlocklists ⟨∅, {"y.test".toList}, ∅⟩
        [⟨"s".toList, "u".toList, [], true, some ["x.test".toList]⟩] []).1.blockedDomains
      = srcUnion [⟨"s".toList, "u".toList, [], true, some ["x.test".toList]⟩]
          ∪ filesDomains [] ∧
    GetBlockedCount (UpdateBlocklists ⟨∅, {"y.test".toList}, ∅⟩
        [⟨"s".toList, "u".toList, [], true, some ["x.test".toList]⟩] []).1
      = (srcUnion [⟨"s".toList, "u".toList, [], true, some ["x.test".toList]⟩]
          ∪ filesDomains []).card + ({"y.test".toList} : Finset GoStr).card ∧
    GetBlockedCount (UpdateBlocklists ⟨∅, {"y.test".toList}, ∅⟩
        [⟨"s".toList, "u".toList, [], true, some ["x.test".toList]⟩] []).1
      = ((srcUnion [⟨"s".toList, "u".toList, [], true, some ["x.test".toList]⟩]
          ∪ filesDomains []) ∪ ({"y.test".toList} : Finset GoStr)).card := by
  have h := updateAll_blocked_count ⟨∅, {"y.test".toList}, ∅⟩
    [⟨"s".toList, "u".toList, [], true, some ["x.test".toList]⟩] []
  exact ⟨h.1, h.2.1, h.2.2 (by decide)⟩

/-- Claim C8 counterexample: with a single enabled source whose fetch
fails, no data at all is produced, yet `UpdateBlocklists` still returns nil
(success) — the claimed failure report does not exist in the code. -/
theorem updateAll_no_data_reports_success_counterexample :
    (UpdateBlocklists ⟨∅, ∅, ∅⟩ [⟨"s".toList, "u".toList, [], true, none⟩] []).2 = none ∧
    (UpdateBlocklists ⟨∅, ∅, ∅⟩
      [⟨"s".toList, "u".toList, [], true, none⟩] []).1.blockedDomains = ∅ := by
  decide

/-- Claim C8 amended: a failing source is skipped and the remaining
sources are still ingested (the rebuilt set is the union of the enabled
successful sources' outputs and the custom-file domains), and
`UpdateBlocklists` returns nil (success) unconditionally — even when no
source, remote or custom, produced any data. -/
theorem updateAll_always_succeeds (e : Engine) (sources : List BlocklistSource)
    (files : List (Option CustomBlocklist)) :
    (UpdateBlocklists e sources files).2 = none ∧
    (UpdateBlocklists e sources files).1.blockedDomains
      = srcUnion sources ∪ filesDomains files := by
  refine ⟨rfl, ?_⟩
  show sources.foldl sourceStep ∅ ∪ (loadCustomYAMLBlocklists files).1 = _
  rw [sourceFold_spec, loadCustom_spec]
  simp

/-- Evaluating `UpstreamPool.Get` on a pool of two or more servers: increment the
index mod 2 ^ 32 and select by the new value mod the pool size. -/
theorem pool_get_two (p : UpstreamPool) (h2 : 2 ≤ p.servers.length) :
    p.Get = (p.servers.getD (((p.index + 1) % 2 ^ 32) % p.servers.length) [],
             ⟨p.servers, (p.index + 1) % 2 ^ 32⟩) := by
  have h0 : p.servers.isEmpty = false := by
    cases hs : p.servers with
    | nil => rw [hs] at h2; simp at h2
    | cons a l => simp
  have h1 : ¬ p.servers.length = 1 := by omega
  unfold UpstreamPool.Get
  simp [h0, h1]

/-- Iterated `Get` on a pool of two or more servers: the j-th call returns
the server at `(index + 1 + j) mod 2 ^ 32 mod N`, and the final index is
`(index + n) mod 2 ^ 32`. -/
theorem pool_run_two (p : UpstreamPool) (h2 : 2 ≤ p.servers.length)
    (hidx : p.index < 2 ^ 32) (n : Nat) :
    (p.run n).1 = (List.range n).map (fun j =>
        p.servers.getD (((p.index + 1 + j) % 2 ^ 32) % p.servers.length) []) ∧
    (p.run n).2 = ⟨p.servers, (p.index + n) % 2 ^ 32⟩ := by
  induction n generalizing p with
  | zero =>
    refine ⟨by simp [UpstreamPool.run], ?_⟩
    show p = _
    rw [Nat.add_zero, Nat.mod_eq_of_lt hidx]
  | succ n ih =>
    have hget := pool_get_two p h2
    have hih := ih ⟨p.servers, (p.index + 1) % 2 ^ 32⟩ h2
      (Nat.mod_lt _ (by norm_num))
    have hrun1 : (p.run (n + 1)).1 = (p.Get).1 :: ((p.Get).2.run n).1 := rfl
    have hrun2 : (p.run (n + 1)).2 = ((p.Get).2.run n).2 := rfl
    dsimp only at hih
    constructor
    · rw [hrun1, hget]
      dsimp only
      rw [hih.1, List.range_succ_eq_map, List.map_cons, List.map_map]
      congr 1
      apply List.map_congr_left
      intro j hj
      simp only [Function.comp_apply]
      have harg : ∀ M : Nat, ((p.index + 1) % M + 1 + j) % M
          = (p.index + 1 + (j + 1)) % M := by
        intro M
        rw [Nat.add_assoc ((p.index + 1) % M) 1 j, Nat.mod_add_mod]
        congr 1
        omega
      rw [harg]
    · rw [hrun2, hget]
      dsimp only
      rw [hih.2]
      have harg : ((p.index + 1) % 2 ^ 32 + n) % 2 ^ 32 = (p.index + (n + 1)) % 2 ^ 32 := by
        rw [Nat.mod_add_mod]
        congr 1
        omega
      rw [harg]

/-- One full window of residues: among `(a + j) % N` for j below N, the
residue r occurs exactly once. -/
theorem count_mod_window (N : Nat) (a r : Nat) (hN : 0 < N) (hr : r < N) :
    ((List.range N).map (fun j => (a + j) % N)).count r = 1 := by
  induction a with
  | zero =>
    have hmap : (List.range N).map (fun j => (0 + j) % N) = List.range N := by
      have hpt : ∀ j ∈ List.range N, (0 + j) % N = (fun j => j) j := by
        intro j hj
        simp only [Nat.zero_add]
        exact Nat.mod_eq_of_lt (List.mem_range.1 hj)
      rw [List.map_congr_left hpt, List.map_id']
    rw [hmap]
    exact List.count_eq_one_of_mem (List.nodup_range N) (List.mem_range.2 hr)
  | succ a iha =>
    obtain ⟨M, hM⟩ : ∃ M, N = M + 1 := ⟨N - 1, by omega⟩
    subst hM
    have hA : (List.range (M + 1)).map (fun j => (a + j) % (M + 1))
        = (a % (M + 1)) :: (List.range M).map (fun j => (a + 1 + j) % (M + 1)) := by
      rw [List.range_succ_eq_map, List.map_cons, List.map_map]
      congr 1
      apply List.map_congr_left
      intro j hj
      simp only [Function.comp_apply]
      congr 1
      omega
    have hB : (List.range (M + 1)).map (fun j => (a + 1 + j) % (M + 1))
        = ((List.range M).map (fun j => (a + 1 + j) % (M + 1))) ++ [(a + 1 + M) % (M + 1)] := by
      rw [List.range_succ, List.map_append]
      rfl
    have hlast : (a + 1 + M) % (M + 1) = a % (M + 1) := by
      have h : a + 1 + M = a + (M + 1) := by omega
      rw [h, Nat.add_mod_right]
    have hperm : List.Perm
        (((List.range M).map (fun j => (a + 1 + j) % (M + 1))) ++ [a % (M + 1)])
        ((a % (M + 1)) :: (List.range M).map (fun j => (a + 1 + j) % (M + 1))) :=
      List.perm_append_singleton _ _
    rw [hB, hlast, List.Perm.count_eq hperm, ← hA]
    exact iha

/-- k full windows of residues: among `(a + j) % N` for j below N times k,
the residue r occurs exactly k times. -/
theorem count_mod_range (N k a r : Nat) (hN : 0 < N) (hr : r < N) :
    ((List.range (N * k)).map (fun j => (a + j) % N)).count r = k := by
  induction k with
  | zero => simp
  | succ k ihk =>
    have hNk : N * (k + 1) = N * k + N := by ring
    rw [hNk, List.range_add, List.map_append, List.count_append, ihk, List.map_map]
    have hfun : ((fun j => (a + j) % N) ∘ (fun j => N * k + j)) =
        fun j => (a + N * k + j) % N := by
      funext j
      simp only [Function.comp_apply]
      congr 1
      omega
    rw [hfun, count_mod_window N (a + N * k) r hN hr]

/-- Counting through `getD` over a duplicate-free server list: selecting
servers by a list of in-range positions and counting one server equals
counting its position. -/
theorem count_getD_map (l : List GoStr) (hnd : l.Nodup) (r : Fin l.length)
    (L : List Nat) (hL : ∀ m ∈ L, m < l.length) :
    (L.map (fun m => l.getD m [])).count (l.get r) = L.count r.1 := by
  induction L with
  | nil => rfl
  | cons m rest ihL =>
    have hm : m < l.length := hL m (List.mem_cons_self _ _)
    have hrest : ∀ x ∈ rest, x < l.length := fun x hx => hL x (List.mem_cons_of_mem _ hx)
    simp only [List.map_cons, List.count_cons, ihL hrest]
    congr 1
    rw [List.getD_eq_get _ _ hm]
    simp only [beq_iff_eq]
    by_cases heq : m = r.1
    · have hfin : (⟨m, hm⟩ : Fin l.length) = r := Fin.ext heq
      rw [hfin, if_pos rfl, if_pos heq]
    · have hne : l.get ⟨m, hm⟩ ≠ l.get r := by
        intro hc
        exact heq (congrArg Fin.val ((List.Nodup.get_inj_iff hnd).1 hc))
      rw [if_neg hne, if_neg heq]

/-- Claim C9 amended: for a pool of N distinct servers whose index window
does not cross the uint32 wraparound, N times k consecutive `Get` calls
return every server exactly k times; and with N at least 2 each call
returns the server at `(index + 1) mod 2 ^ 32 mod N`. -/
theorem roundRobin_fair (p : UpstreamPool) (k : Nat)
    (hN : 1 ≤ p.servers.length) (hnd : p.servers.Nodup)
    (hidx : p.index < 2 ^ 32)
    (hwrap : p.index + p.servers.length * k < 2 ^ 32) :
    (∀ s ∈ p.servers, (p.run (p.servers.length * k)).1.count s = k) ∧
    (2 ≤ p.servers.length →
      (p.Get).1 = p.servers.getD (((p.index + 1) % 2 ^ 32) % p.servers.length) []) := by
  constructor
  · intro s hs
    rcases Nat.lt_or_ge p.servers.length 2 with h1 | h2
    · have hlen : p.servers.length = 1 := by omega
      obtain ⟨x, hx⟩ := List.length_eq_one.1 hlen
      have hget : p.Get = (x, p) := by
        unfold UpstreamPool.Get
        rw [hx]
        simp
      have hrep : ∀ m, (p.run m).1 = List.replicate m x := by
        intro m
        induction m with
        | zero => rfl
        | succ m ihm =>
          have h1' : (p.run (m + 1)).1 = (p.Get).1 :: ((p.Get).2.run m).1 := rfl
          rw [h1', hget]
          show x :: (p.run m).1 = _
          rw [ihm]
          rfl
      have hsx : s = x := by
        rw [hx] at hs
        simpa using hs
      rw [hrep, hsx, hlen]
      simp
    · have hrun := (pool_run_two p h2 hidx (p.servers.length * k)).1
      rw [hrun]
      have hpt : ∀ j ∈ List.range (p.servers.length * k),
          p.servers.getD (((p.index + 1 + j) % 2 ^ 32) % p.servers.length) []
            = ((fun m => p.servers.getD m []) ∘
               (fun j => (p.index + 1 + j) % p.servers.length)) j := by
        intro j hj
        have hj' := List.mem_range.1 hj
        have hlt : (p.index + 1 + j) % 2 ^ 32 = p.index + 1 + j :=
          Nat.mod_eq_of_lt (by omega)
        simp only [Function.comp_apply, hlt]
      rw [List.map_congr_left hpt, ← List.map_map]
      obtain ⟨nfin, hget⟩ := List.mem_iff_get.1 hs
      rw [← hget]
      have hN0 : 0 < p.servers.length := by omega
      have hmemL : ∀ m ∈ (List.range (p.servers.length * k)).map
          (fun j => (p.index + 1 + j) % p.servers.length), m < p.servers.length := by
        intro m hm
        obtain ⟨j, hj, rfl⟩ := List.mem_map.1 hm
        exact Nat.mod_lt _ hN0
      rw [count_getD_map p.servers hnd nfin _ hmemL]
      exact count_mod_range p.servers.length k (p.index + 1) nfin.1 hN0 nfin.2
  · intro h2
    rw [pool_get_two p h2]

/-- Witness for the amended C9: two distinct servers, index 0, one round of
two calls returns the first server exactly once. -/
theorem roundRobin_fair_witness :
    ((⟨["a".toList, "b".toList], 0⟩ : UpstreamPool).run 2).1.count "a".toList = 1 :=
  (roundRobin_fair ⟨["a".toList, "b".toList], 0⟩ 1 (by decide) (by decide)
    (by norm_num) (by norm_num)).1 "a".toList (by decide)

/-- Claim C9 counterexample: the pool state with three servers and index
2 ^ 32 - 2 is reachable from a fresh three-server pool, and over the next
N times k = 3 consecutive calls the third server is returned 0 times, not
once: the uint32 index wraps from 2 ^ 32 - 1 to 0 and residue 0 repeats. -/
theorem roundRobin_wrap_counterexample :
    ((NewUpstreamPool ["a".toList, "b".toList, "c".toList]).run (2 ^ 32 - 2)).2
      = ⟨["a".toList, "b".toList, "c".toList], 2 ^ 32 - 2⟩ ∧
    ((⟨["a".toList, "b".toList, "c".toList], 2 ^ 32 - 2⟩ : UpstreamPool).run 3).1.count
      "c".toList = 0 := by
  constructor
  · have h := (pool_run_two (⟨["a".toList, "b".toList, "c".toList], 0⟩ : UpstreamPool)
      (by decide) (by norm_num) (2 ^ 32 - 2)).2
    rw [show NewUpstreamPool ["a".toList, "b".toList, "c".toList]
        = (⟨["a".toList, "b".toList, "c".toList], 0⟩ : UpstreamPool) from rfl]
    rw [h]
    congr 1
  · decide
